import Mathlib

/-!
# parkeddomains: a shallow embedding of `main.go`

Text is modelled by Lean strings (sequences of Unicode characters), which is
what Go's `regexp` and `strings` packages see of a valid UTF-8 string.

The program talks to three things that are not part of the repository: the
Go regular-expression engine, the HTTP client and `net/url`.  The regular
expression is embedded for the fragment of the RE2 syntax the pattern of
`main.go` uses (literal characters, `.` and `|`).  The client is embedded with
the redirect policy `main.go` leaves it (Go's default); the servers it talks
to and the URL parser are parameters of the model (`Env`).
-/

namespace ParkedDomains

/-! ## The classifier (`parkedContentRegex`, `isContentParked`) -/

/-- The pattern string handed to `regexp.MustCompile` in `main.go`, verbatim. -/
def parkedContentPattern : String :=
  "buy this domain|parked free|godaddy|is for sale|domain parking|renew now|this domain|namecheap|buy now for|hugedomains|is owned and listed by|sav.com|searchvity.com|domain for sale|register4less|aplus.net|related searches|related links|search ads|domain expert|united domains|domian name has been registered|this domain may be for sale|domain name is available for sale|premium domain|this domain name|this domain has expired|domainpage.io|sedoparking.com|parking-lander"

/-- One element of a compiled alternative: a literal character, or the dot,
which in Go's default mode matches every character except the newline. -/
inductive Inst where
  | lit (c : Char)
  | anyNotNL
deriving DecidableEq, Repr

/-- A compiled pattern of the fragment: an alternation of sequences. -/
structure Regexp where
  alts : List (List Inst)
deriving DecidableEq, Repr

/-- The characters the RE2 syntax gives a meaning other than themselves. -/
def metaChars : List Char :=
  ['\\', '.', '+', '*', '?', '(', ')', '|', '[', ']', '{', '}', '^', '$']

/-- Splitting a pattern at the top-level `|` (the fragment has no groups). -/
def splitAlternatives : List Char → List (List Char)
  | [] => [[]]
  | c :: cs =>
    if c = '|' then [] :: splitAlternatives cs
    else
      match splitAlternatives cs with
      | [] => [[c]]
      | a :: as => (c :: a) :: as

/-- Compiling one character of an alternative: `.` is the wildcard, every other
character of the fragment stands for itself. -/
def compileChar (c : Char) : Inst :=
  if c = '.' then Inst.anyNotNL else Inst.lit c

/-- The fragment of `regexp.MustCompile` that the pattern of `main.go` needs. -/
def MustCompile (pattern : String) : Regexp :=
  ⟨(splitAlternatives pattern.toList).map (fun a => a.map compileChar)⟩

/-- The package-level variable `parkedContentRegex`. -/
def parkedContentRegex : Regexp := MustCompile parkedContentPattern

/-- Whether an element of the pattern accepts a character of the text. -/
def Inst.accepts : Inst → Char → Bool
  | Inst.lit c, d => decide (c = d)
  | Inst.anyNotNL, d => decide (d ≠ '\n')

/-- Whether a sequence of the pattern matches a prefix of the text. -/
def matchPrefix : List Inst → List Char → Bool
  | [], _ => true
  | _ :: _, [] => false
  | i :: is, c :: cs => i.accepts c && matchPrefix is cs

/-- Whether some alternative matches at the start of the text. -/
def matchHere (re : Regexp) (s : List Char) : Bool :=
  re.alts.any (fun a => matchPrefix a s)

/-- Unanchored search: some alternative matches at some position of the text. -/
def matchAnywhere (re : Regexp) : List Char → Bool
  | [] => matchHere re []
  | c :: cs => matchHere re (c :: cs) || matchAnywhere re cs

/-- The method `(*Regexp).MatchString`. -/
def Regexp.MatchString (re : Regexp) (s : String) : Bool :=
  matchAnywhere re s.toList

/-- The function `isContentParked` of `main.go`. -/
def isContentParked (content : String) : Bool :=
  parkedContentRegex.MatchString content

/-- The signature phrases as the specification reads them: the alternatives of
the pattern, each taken as a plain phrase. -/
def signaturePhrases : List (List Char) :=
  splitAlternatives parkedContentPattern.toList

/-- The specification's classifier: the body contains one of the signature
phrases as a literal, case-sensitive substring. -/
def containsSignaturePhrase (body : String) : Prop :=
  ∃ p ∈ signaturePhrases, p <:+: body.toList

instance (body : String) : Decidable (containsSignaturePhrase body) := by
  unfold containsSignaturePhrase; infer_instance

/-! ## Reading a response body (`bufio.Scanner` with the default `ScanLines`) -/

/-- The constant `bufio.MaxScanTokenSize`: the largest buffer the scanner grows to. -/
def maxScanTokenSize : Nat := 64 * 1024

/-- The number of bytes of the UTF-8 encoding of a text. -/
def byteLen (l : List Char) : Nat := (l.map Char.utf8Size).sum

/-- The helper `dropCR` of `bufio.ScanLines`: one trailing carriage return is dropped. -/
def dropCR (line : List Char) : List Char :=
  if line.getLast? = some '\r' then line.dropLast else line

/-- The body cut at each newline: the segment before the first newline and
those after it.  The last segment is what follows the last newline (the whole
body when it has none); a body that ends in a newline has an empty last segment. -/
def splitNewlines : List Char → List (List Char)
  | [] => [[]]
  | c :: cs =>
    if c = '\n' then [] :: splitNewlines cs
    else
      match splitNewlines cs with
      | [] => [[c]]
      | a :: as => (c :: a) :: as

/-- The loop `for scanner.Scan() { body.WriteString(scanner.Text()) }` over the
segments of a body: each line is appended without its terminator.  The scanner
stops, with an error nobody reads, at the first line it cannot hold: a line
that is followed by a newline must fit the buffer of 64 KiB together with that
newline; the last segment must fit the buffer, and when it fills the buffer
exactly it is returned only if the reader reports the end of the body together
with its last bytes (`eofWithData`). -/
def scanAppend (eofWithData : Bool) : List (List Char) → List Char
  | [] => []
  | [last] =>
    if maxScanTokenSize < byteLen last ∨ (byteLen last = maxScanTokenSize ∧ eofWithData = false)
    then [] else dropCR last
  | line :: rest =>
    if maxScanTokenSize ≤ byteLen line then [] else dropCR line ++ scanAppend eofWithData rest

/-- What `followURL` returns for a response it reads (lines 67 to 73): the text
collected by the scanner loop from the response body. -/
def readBody (eofWithData : Bool) (body : String) : String :=
  String.mk (scanAppend eofWithData (splitNewlines body.toList))

/-! ## The HTTP client (`client.Do` with the default redirect policy) -/

/-- The value `url.Parse` returns: only its field `Host` is read by `main.go`. -/
structure URL where
  Host : String
deriving DecidableEq, Repr

/-- One HTTP response, as far as the client and `followURL` look at it: the
status code, `Header.Get("Location")` (empty when the header is absent), the
text of the body, and whether the reader of the body reports its end together
with its last bytes (Go's transport does for a body sent with a
`Content-Length`) or in a read of its own. -/
structure Response where
  status : Nat
  location : String
  body : String
  eofWithData : Bool
deriving DecidableEq, Repr

/-- The world outside the repository.
* `urlParse` is `net/url.Parse`: `none` when it returns a nil URL and an error.
* `resolve base ref` is the URL of the next request when the response to a
  request for `base` redirects to `ref` (`req.URL.Parse(ref)`, as a string);
  `none` when the reference does not parse.
* `roundTrip sent url` is one exchange with a server: the answer to a GET
  request for `url` made after the requests `sent` (oldest first), or the
  transport's error (DNS, connection, timeout, no descriptor left).  The
  answer may depend on what was requested before: the requests of one call of
  `followURL` all differ in what was sent before them, so whatever the servers
  and the machine answer in the course of one call is the `roundTrip` of some
  environment. -/
structure Env where
  urlParse : String → Option URL
  resolve : String → String → Option String
  roundTrip : List String → String → Except String Response

/-- The Go `error` values `followURL` can return: the error of
`http.NewRequest`, an error of the transport, and the two errors of the
client's own redirect handling. -/
inductive FetchError where
  | badURL (urlStr : String)
  | transport (cause : String)
  | badLocation (location : String)
  | stoppedAfter10
deriving DecidableEq, Repr

/-- The statuses Go's client answers by a request of its own for the location
(`redirectBehavior` for a GET request). -/
def isRedirectStatus (status : Nat) : Bool :=
  decide (status = 301 ∨ status = 302 ∨ status = 303 ∨ status = 307 ∨ status = 308)

/-- The loop of `(*http.Client).do` for a GET request, with the default
`CheckRedirect`: a request is sent; a redirect response that names a location
makes the client send the next request itself, to whatever host the location
names, unless the location does not parse or ten requests have been sent
already (`stopped after 10 redirects`).  The first argument counts the
requests the client may still send.  The result is the list of all requests
sent so far and what `client.Do` returns.  (A redirect status without a
location is handed back as it is; earlier releases of Go made it an error.) -/
def clientSend (env : Env) : Nat → List String → String →
    List String × Except FetchError Response
  | 0, sent, _ => (sent, Except.error FetchError.stoppedAfter10)
  | n + 1, sent, reqURL =>
    match env.roundTrip sent reqURL with
    | Except.error cause => (sent ++ [reqURL], Except.error (FetchError.transport cause))
    | Except.ok resp =>
      if isRedirectStatus resp.status = true ∧ resp.location ≠ "" then
        match env.resolve reqURL resp.location with
        | none => (sent ++ [reqURL], Except.error (FetchError.badLocation resp.location))
        | some next => clientSend env n (sent ++ [reqURL]) next
      else (sent ++ [reqURL], Except.ok resp)

/-- The call `client.Do(req)` of line 51: the client of lines 40 to 42 sets
only `Timeout`, so the default redirect policy applies. -/
def clientDo (env : Env) (sent : List String) (urlStr : String) :
    List String × Except FetchError Response :=
  clientSend env 10 sent urlStr

/-! ## The fetcher (`followURL`, `getDomainFromURL`) -/

/-- How a call of `followURL` ends: `return body, nil`, `return "", err`, or the
run-time panic of a nil pointer dereference. -/
inductive Outcome where
  | ok (body : String)
  | error (err : FetchError)
  | panic
deriving DecidableEq, Repr

/-- A finished call of `followURL`: the URLs requests were sent for, in order
(those the client sent by itself included), and how the call ended. -/
structure Run where
  requests : List String
  outcome : Outcome
deriving DecidableEq, Repr

/-- The function `getDomainFromURL`: the error of `url.Parse` is discarded and
the field `Host` of the returned pointer is read; `none` stands for the nil
pointer dereference when `url.Parse` failed. -/
def getDomainFromURL (env : Env) (urlStr : String) : Option String :=
  match env.urlParse urlStr with
  | none => none
  | some parsedURL => some parsedURL.Host

/-- The function `followURL`, with the requests sent so far as explicit state.
The recursion of the source has no counter, so the embedding takes fuel: `none`
means the fuel ran out before the call returned.  `http.NewRequest` fails
exactly when `url.Parse` rejects the URL. -/
def followURL (env : Env) : Nat → List String → String → Option Run
  | 0, _, _ => none
  | fuel + 1, sent, urlStr =>
    match env.urlParse urlStr with
    | none => some ⟨sent, Outcome.error (FetchError.badURL urlStr)⟩
    | some _ =>
      match clientDo env sent urlStr with
      | (sent', Except.error err) => some ⟨sent', Outcome.error err⟩
      | (sent', Except.ok resp) =>
        if resp.location ≠ "" then
          match getDomainFromURL env urlStr, getDomainFromURL env resp.location with
          | some targetDomain, some redirectDomain =>
            if targetDomain = redirectDomain ∨ "www." ++ targetDomain = redirectDomain then
              followURL env fuel sent' resp.location
            else some ⟨sent', Outcome.ok (readBody resp.eofWithData resp.body)⟩
          | _, _ => some ⟨sent', Outcome.panic⟩
        else some ⟨sent', Outcome.ok (readBody resp.eofWithData resp.body)⟩

/-! ## The worker's unit of work (`handleURL`) -/

/-- The predicate `unicode.IsSpace`: the characters `strings.TrimSpace` removes. -/
def isSpace (c : Char) : Bool :=
  let n := c.toNat
  decide ((0x09 ≤ n ∧ n ≤ 0x0d) ∨ n = 0x20 ∨ n = 0x85 ∨ n = 0xa0 ∨ n = 0x1680 ∨
    (0x2000 ≤ n ∧ n ≤ 0x200a) ∨ n = 0x2028 ∨ n = 0x2029 ∨ n = 0x202f ∨ n = 0x205f ∨ n = 0x3000)

/-- The function `strings.TrimSpace`. -/
def TrimSpace (s : String) : String :=
  String.mk (((s.toList.dropWhile isSpace).reverse.dropWhile isSpace).reverse)

/-- The function `strings.HasPrefix`. -/
def HasPrefix (s pre : String) : Bool :=
  pre.toList.isPrefixOf s.toList

/-- The first statements of `handleURL`: the input is trimmed and gets
`http://` in front unless it starts with the four characters `http`. -/
def normalizeURL (urlStr : String) : String :=
  let urlStr := TrimSpace urlStr
  if !HasPrefix urlStr "http" then "http://" ++ urlStr else urlStr

/-- What the body of one call of `handleURL` did: the URL it worked on, the
requests sent, the verbose diagnostics printed, the strings sent on `results`,
and whether `followURL` panicked.  (The deferred `wg.Done()` of `handleURL` is
not part of this record; it is an event of the dispatcher's trace below.) -/
structure HandleRun where
  urlStr : String
  requests : List String
  printed : List (String × FetchError)
  sent : List String
  panicked : Bool
deriving DecidableEq, Repr

/-- The function `handleURL`, with the flag `verbose` and the fuel of `followURL`. -/
def handleURL (env : Env) (verbose : Bool) (fuel : Nat) (urlStr : String) : Option HandleRun :=
  let urlStr := normalizeURL urlStr
  match followURL env fuel [] urlStr with
  | none => none
  | some r =>
    match r.outcome with
    | Outcome.panic => some ⟨urlStr, r.requests, [], [], true⟩
    | Outcome.error err =>
      some ⟨urlStr, r.requests, if verbose then [(urlStr, err)] else [], [], false⟩
    | Outcome.ok body =>
      some ⟨urlStr, r.requests, [], if isContentParked body then [urlStr] else [], false⟩

/-! ## The dispatcher and the wait group (`main`, lines 143 to 160) -/

/-- The steps of the dispatcher that matter for the wait group and for the
distribution of work: `wg.Add(1)` in the loop of `main`, the body of
`handleURL` run by a worker on an item (fetch, classify, send on a match), and a
`wg.Done()` executed by a worker. -/
inductive Event where
  | add
  | handle (worker : Nat) (item : String)
  | done (worker : Nat)
deriving DecidableEq, Repr

/-- One call `handleURL(url, &wg, results)` by a worker: its body, then its own
deferred `wg.Done()`. -/
def handleURLEvents (worker : Nat) (item : String) : List Event :=
  [Event.handle worker item, Event.done worker]

/-- The code of the goroutine started for one worker, in program order: it
ranges over the whole of `urls`, calling `handleURL` on each, and its deferred
`wg.Done()` runs last.  A run of the program executes a prefix of this trace:
the process ends when `main` has printed, which it does once the wait group has
reached zero, and a negative counter is a panic. -/
def workerEvents (urls : List String) (worker : Nat) : List Event :=
  urls.flatMap (handleURLEvents worker) ++ [Event.done worker]

/-- The program-order traces of the workers the loop of `main` starts, one for
each `i` below `threads`. -/
def dispatch (threads : Nat) (urls : List String) : List (List Event) :=
  (List.range threads).map (workerEvents urls)

/-- The calls of `handleURL` in a trace: which worker, on which item. -/
def handleCalls : List Event → List (Nat × String)
  | [] => []
  | Event.handle w u :: es => (w, u) :: handleCalls es
  | _ :: es => handleCalls es

/-- The calls of `handleURL` in the code of the workers: what each worker goes
on to do for as long as the program lets it run. -/
def fetchAttempts (threads : Nat) (urls : List String) : List (Nat × String) :=
  handleCalls (dispatch threads urls).flatten

/-- The method `(*sync.WaitGroup).Add`: the counter moves by `delta`; a
negative counter is a run-time panic (`none`). -/
def wgAdd (counter : Int) (delta : Int) : Option Int :=
  if counter + delta < 0 then none else some (counter + delta)

/-- The effect of one event on the counter of the wait group; `Done` is `Add(-1)`. -/
def wgStep (counter : Int) : Event → Option Int
  | Event.add => wgAdd counter 1
  | Event.handle _ _ => some counter
  | Event.done _ => wgAdd counter (-1)

/-- The counter after a sequence of events, `none` once it panicked. -/
def wgRun : Int → List Event → Option Int
  | counter, [] => some counter
  | counter, e :: es =>
    match wgStep counter e with
    | none => none
    | some c => wgRun c es

/-- The only order of the wait-group events of a run with one worker: `main`
adds one, then the worker runs. -/
def singleWorkerTrace (urls : List String) : List Event :=
  Event.add :: workerEvents urls 0

/-! ## The aggregator and the output (`main`, lines 162 to 177) -/

/-- The state of the aggregation loop: the map `uniqueResults` (an absent key
reads as `false`) and the slice `parkedDomains`, where `none` is the nil slice
that `var parkedDomains []string` declares. -/
structure AggState where
  uniqueResults : String → Bool
  parkedDomains : Option (List String)

/-- The built-in `append` on a slice of strings: appending to the nil slice
gives a slice that is not nil. -/
def goAppend : Option (List String) → String → Option (List String)
  | none, x => some [x]
  | some l, x => some (l ++ [x])

/-- The state before the loop. -/
def AggState.init : AggState := ⟨fun _ => false, none⟩

/-- The body of the loop `for result := range results`. -/
def aggregateStep (st : AggState) (result : String) : AggState :=
  if !st.uniqueResults result then
    ⟨fun k => if k = result then true else st.uniqueResults k, goAppend st.parkedDomains result⟩
  else st

/-- The aggregation loop over everything received on the result stream. -/
def aggregate (stream : List String) : AggState :=
  stream.foldl aggregateStep AggState.init

/-- The elements of a slice; the nil slice has none. -/
def sliceElems : Option (List String) → List String
  | none => []
  | some l => l

/-- The output collection: the elements of `parkedDomains` after the loop. -/
def outputCollection (stream : List String) : List String :=
  sliceElems (aggregate stream).parkedDomains

/-- The function `json.Marshal` on a `[]string`: the nil slice is encoded as
`null`, any other slice as an array.  The encoding of one string as a JSON
string literal is the parameter `enc`. -/
def jsonMarshal (enc : String → String) : Option (List String) → String
  | none => "null"
  | some l => "[" ++ ",".intercalate (l.map enc) ++ "]"

/-- What `fmt.Println(string(output))` writes to standard output after the loop. -/
def printedOutput (enc : String → String) (stream : List String) : String :=
  jsonMarshal enc (aggregate stream).parkedDomains ++ "\n"

/-- The order of first occurrence, as the specification words it: each string
once, at the place where it is first seen. -/
def firstOccurrences : List String → List String
  | [] => []
  | x :: xs => x :: (firstOccurrences xs).filter (fun y => decide (y ≠ x))

/-! ## Example webs

`sampleParse` lists what `url.Parse` answers at the few strings the examples
use: the host of some plain absolute URLs, and the error `missing protocol
scheme` for a string that starts with a colon.  `sampleResolve` resolves an
absolute URL of that list to itself. -/

/-- The answers of `url.Parse` at the strings of the examples. -/
def sampleParse (s : String) : Option URL :=
  if s = "http://a.com" then some ⟨"a.com"⟩
  else if s = "http://a.com/loop" then some ⟨"a.com"⟩
  else if s = "http://www.a.com/" then some ⟨"www.a.com"⟩
  else if s = "http://b.com/" then some ⟨"b.com"⟩
  else if s = "http://c.com" then some ⟨"c.com"⟩
  else if s = "http://d.com" then some ⟨"d.com"⟩
  else none

/-- The next request for a location that is one of the absolute URLs above. -/
def sampleResolve (_base ref : String) : Option String :=
  match sampleParse ref with
  | none => none
  | some _ => some ref

/-- A web with a real redirect to another host: `http://a.com` answers
`302 Found` with the location `http://b.com/`, and `http://b.com/` serves a
parking page. -/
def redirectEnv : Env where
  urlParse := sampleParse
  resolve := sampleResolve
  roundTrip := fun _ s =>
    if s = "http://a.com" then Except.ok ⟨302, "http://b.com/", "", true⟩
    else if s = "http://b.com/" then Except.ok ⟨200, "", "godaddy", true⟩
    else Except.error "no such host"

/-- A web where `http://a.com/loop` answers `302 Found` with itself as the
location. -/
def loop302Env : Env where
  urlParse := sampleParse
  resolve := sampleResolve
  roundTrip := fun _ s =>
    if s = "http://a.com/loop" then Except.ok ⟨302, "http://a.com/loop", "", true⟩
    else Except.error "no such host"

/-- A web where `http://a.com` answers `200 OK` with a `Location` header that
`url.Parse` rejects. -/
def badLocationEnv : Env where
  urlParse := sampleParse
  resolve := sampleResolve
  roundTrip := fun _ s =>
    if s = "http://a.com" then Except.ok ⟨200, ":foo", "moved", true⟩
    else Except.error "no such host"

/-- A web where `http://a.com` answers `200 OK` with a `Location` header naming
its `www.` variant, which serves a page, and `http://c.com` answers `200 OK` with
a `Location` header naming another host. -/
def locationEnv : Env where
  urlParse := sampleParse
  resolve := sampleResolve
  roundTrip := fun _ s =>
    if s = "http://a.com" then Except.ok ⟨200, "http://www.a.com/", "", true⟩
    else if s = "http://www.a.com/" then Except.ok ⟨200, "", "this domain is for sale", true⟩
    else if s = "http://c.com" then Except.ok ⟨200, "http://b.com/", "moved", true⟩
    else if s = "http://b.com/" then Except.ok ⟨200, "", "godaddy", true⟩
    else Except.error "no such host"

/-- A body of one line of more than 64 KiB that contains a signature phrase. -/
def longLineBody : String :=
  String.mk (List.replicate 70000 'a' ++ "godaddy".toList)

/-- A web of plain pages: `http://c.com` serves the two lines `go` and `daddy`,
and `http://d.com` serves the one long line above. -/
def pageEnv : Env where
  urlParse := sampleParse
  resolve := sampleResolve
  roundTrip := fun _ s =>
    if s = "http://c.com" then Except.ok ⟨200, "", "go\ndaddy", true⟩
    else if s = "http://d.com" then Except.ok ⟨200, "", longLineBody, true⟩
    else Except.error "no such host"

/-- Whether a string is `http://a.com/` followed by nothing but the letter `x`. -/
def isChainURL (s : String) : Bool :=
  HasPrefix s "http://a.com/" && (s.toList.drop 13).all (fun c => decide (c = 'x'))

/-- A web of chains of every length: `http://a.com/` serves a page, and
`http://a.com/` followed by some letters `x` answers `200 OK` with a `Location`
header naming the URL that is one letter shorter.  `url.Parse` gives all of
them the host `a.com`. -/
def chainEnv : Env where
  urlParse := fun s => if isChainURL s then some ⟨"a.com"⟩ else none
  resolve := fun _ ref => if isChainURL ref then some ref else none
  roundTrip := fun _ s =>
    if s = "http://a.com/" then Except.ok ⟨200, "", "done", true⟩
    else if isChainURL s then Except.ok ⟨200, String.mk s.toList.dropLast, "", true⟩
    else Except.error "no such host"

/-! ## The classifier: what the compiled pattern accepts -/

/-- Every character is accepted by its own compiled form: a literal accepts
itself, and the dot accepts a dot. -/
theorem compileChar_accepts (c : Char) : (compileChar c).accepts c = true := by
  unfold compileChar
  split
  · next h => subst h; decide
  · simp [Inst.accepts]

/-- A phrase, compiled, matches every text that starts with the phrase. -/
theorem matchPrefix_compiled (p rest : List Char) :
    matchPrefix (p.map compileChar) (p ++ rest) = true := by
  induction p with
  | nil => simp [matchPrefix]
  | cons c cs ih => simp [matchPrefix, compileChar_accepts, ih]

/-- A match at the start of a text is a match somewhere in it. -/
theorem matchAnywhere_of_matchHere (re : Regexp) (s : List Char)
    (h : matchHere re s = true) : matchAnywhere re s = true := by
  cases s with
  | nil => simpa [matchAnywhere] using h
  | cons c cs => simp [matchAnywhere, h]

/-- The search looks at every suffix of the text. -/
theorem matchAnywhere_append (re : Regexp) (pre s : List Char)
    (h : matchHere re s = true) : matchAnywhere re (pre ++ s) = true := by
  induction pre with
  | nil => exact matchAnywhere_of_matchHere re s h
  | cons c cs ih => simp [matchAnywhere, ih]

/-- The search succeeds exactly when some alternative matches at some suffix. -/
theorem matchAnywhere_iff (re : Regexp) (s : List Char) :
    matchAnywhere re s = true ↔
      ∃ pre post, s = pre ++ post ∧ ∃ a ∈ re.alts, matchPrefix a post = true := by
  constructor
  · intro h
    induction s with
    | nil =>
      refine ⟨[], [], rfl, ?_⟩
      simpa [matchAnywhere, matchHere] using h
    | cons c cs ih =>
      simp only [matchAnywhere, Bool.or_eq_true] at h
      rcases h with h | h
      · refine ⟨[], c :: cs, rfl, ?_⟩
        simpa [matchHere] using h
      · obtain ⟨pre, post, hs, hm⟩ := ih h
        exact ⟨c :: pre, post, by simp [hs], hm⟩
  · rintro ⟨pre, post, rfl, a, ha, hm⟩
    apply matchAnywhere_append
    simp only [matchHere, List.any_eq_true]
    exact ⟨a, ha, hm⟩

/-- The direction of the specification that the code keeps: a body that
contains a signature phrase literally is classified as parked. -/
theorem isContentParked_of_containsSignaturePhrase (body : String)
    (h : containsSignaturePhrase body) : isContentParked body = true := by
  obtain ⟨p, hp, pre, post, hbody⟩ := h
  unfold isContentParked Regexp.MatchString
  rw [← hbody, List.append_assoc]
  apply matchAnywhere_append
  simp only [matchHere, List.any_eq_true]
  refine ⟨p.map compileChar, ?_, matchPrefix_compiled p post⟩
  simp only [parkedContentRegex, MustCompile, List.mem_map]
  exact ⟨p, hp, rfl⟩

set_option maxRecDepth 100000 in
/-- The pattern of `main.go` stays inside the embedded fragment: its only
characters with a special meaning are the dot and the bar. -/
theorem parkedContentPattern_in_fragment :
    ∀ c ∈ parkedContentPattern.toList, c ∈ metaChars → c = '.' ∨ c = '|' := by
  decide

/-- Matching is case-sensitive: `GoDaddy` is not classified as parked. -/
theorem isContentParked_case_sensitive : isContentParked "GoDaddy" = false := by
  decide

/-- C1 (code bug): the dots of `sav.com`, `searchvity.com`, `aplus.net`,
`domainpage.io` and `sedoparking.com` are not escaped in the pattern, so each
stands for any character: the body `savXcom` contains none of the signature
phrases as a literal substring and is classified as parked all the same. -/
theorem isContentParked_savXcom :
    isContentParked "savXcom" = true ∧ ¬ containsSignaturePhrase "savXcom" := by
  decide

/-! ## The dispatcher -/

/-- C3 (code bug): with two workers and the one item `a.com`, `handleURL` is
called on the item by worker 0 and again by worker 1: two fetch attempts for
one input item. -/
theorem fetchAttempts_two_workers :
    fetchAttempts 2 ["a.com"] = [(0, "a.com"), (1, "a.com")] ∧
    (fetchAttempts 2 ["a.com"]).length ≠ ["a.com"].length := by
  decide

/-! ## The normalisation in `handleURL` -/

/-- The normalisation tests the four characters `http`, not a URL scheme. -/
theorem normalizeURL_eq (urlStr : String) :
    normalizeURL urlStr =
      if HasPrefix (TrimSpace urlStr) "http" = true then TrimSpace urlStr
      else "http://" ++ TrimSpace urlStr := by
  unfold normalizeURL
  cases h : HasPrefix (TrimSpace urlStr) "http" <;> simp [h]

/-- C6 (code bug): the host `httpbin.org` has no scheme, yet it starts with the
characters `http`, so it is left as it is instead of becoming
`http://httpbin.org`; an input with a scheme stays unchanged only when that
scheme starts with `http`. -/
theorem normalizeURL_httpbin :
    normalizeURL "httpbin.org" = "httpbin.org" ∧
    normalizeURL "httpbin.org" ≠ "http://httpbin.org" ∧
    normalizeURL "ftp://a.com" = "http://ftp://a.com" := by
  decide

/-! ## The wait group -/

/-- With one worker and at least one item, the wait-group calls in the code of
the worker drive the counter below zero if it gets that far: `handleURL` and
the worker both call `wg.Done()` against the single `wg.Add(1)`. -/
theorem wgRun_singleWorkerTrace (u : String) (us : List String) :
    wgRun 0 (singleWorkerTrace (u :: us)) = none := by
  cases us with
  | nil => simp [singleWorkerTrace, workerEvents, handleURLEvents, wgRun, wgStep, wgAdd]
  | cons v vs =>
    simp [singleWorkerTrace, workerEvents, handleURLEvents, wgRun, wgStep, wgAdd]

/-- C9 (code bug): one worker, items `a` and `b`.  After `wg.Add(1)` and the
first call of `handleURL` the counter is already zero, while item `b` is still
to be processed; the `wg.Done()` of the second call then makes it negative. -/
theorem waitGroup_single_worker :
    singleWorkerTrace ["a", "b"] =
      [Event.add, Event.handle 0 "a", Event.done 0] ++
        [Event.handle 0 "b", Event.done 0, Event.done 0] ∧
    wgRun 0 [Event.add, Event.handle 0 "a", Event.done 0] = some 0 ∧
    wgRun 0 (singleWorkerTrace ["a", "b"]) = none := by
  decide

/-! ## The aggregator -/

/-- Appending to a slice appends to its elements. -/
theorem sliceElems_goAppend (s : Option (List String)) (x : String) :
    sliceElems (goAppend s x) = sliceElems s ++ [x] := by
  cases s <;> rfl

/-- The loop invariant of the aggregation: with the map marking exactly the
strings already in the slice, the loop appends the first occurrences of the
strings that are new. -/
theorem foldl_aggregateStep_elems (xs : List String) :
    ∀ st : AggState,
      (∀ x, st.uniqueResults x = true ↔ x ∈ sliceElems st.parkedDomains) →
      sliceElems (xs.foldl aggregateStep st).parkedDomains =
        sliceElems st.parkedDomains ++
          (firstOccurrences xs).filter (fun x => decide (x ∉ sliceElems st.parkedDomains)) := by
  induction xs with
  | nil => intro st _; simp [firstOccurrences]
  | cons y ys ih =>
    intro st hinv
    simp only [List.foldl_cons, firstOccurrences]
    by_cases hy : st.uniqueResults y = true
    · have hst : aggregateStep st y = st := by simp [aggregateStep, hy]
      have hmem : y ∈ sliceElems st.parkedDomains := (hinv y).1 hy
      rw [hst, ih st hinv, List.filter_cons_of_neg (by simpa using hmem), List.filter_filter]
      congr 1
      apply List.filter_congr
      intro x _
      by_cases hx : x = y
      · subst hx; simp [hmem]
      · simp [hx]
    · have hnot : y ∉ sliceElems st.parkedDomains := fun h => hy ((hinv y).2 h)
      have hpd : (aggregateStep st y).parkedDomains = goAppend st.parkedDomains y := by
        simp [aggregateStep, hy]
      have hur : ∀ x, (aggregateStep st y).uniqueResults x =
          (if x = y then true else st.uniqueResults x) := by
        intro x; simp [aggregateStep, hy]
      have hinv2 : ∀ x, (aggregateStep st y).uniqueResults x = true ↔
          x ∈ sliceElems (aggregateStep st y).parkedDomains := by
        intro x
        rw [hur, hpd, sliceElems_goAppend]
        by_cases hx : x = y
        · simp [hx]
        · simp [hx, hinv x]
      rw [ih _ hinv2, hpd, sliceElems_goAppend, List.filter_cons_of_pos (by simpa using hnot),
        List.filter_filter, List.append_assoc]
      congr 1
      simp only [List.singleton_append]
      congr 1
      apply List.filter_congr
      intro x _
      by_cases hx : x = y
      · simp [hx]
      · simp [hx]

/-- The output collection is the list of first occurrences of the stream. -/
theorem outputCollection_eq_firstOccurrences (stream : List String) :
    outputCollection stream = firstOccurrences stream := by
  unfold outputCollection aggregate
  rw [foldl_aggregateStep_elems stream AggState.init (by simp [AggState.init, sliceElems])]
  simp [AggState.init, sliceElems]

/-- The first occurrences hold exactly the strings of the list. -/
theorem mem_firstOccurrences (xs : List String) (s : String) :
    s ∈ firstOccurrences xs ↔ s ∈ xs := by
  induction xs with
  | nil => simp [firstOccurrences]
  | cons y ys ih =>
    simp only [firstOccurrences, List.mem_cons, List.mem_filter, ih]
    by_cases h : s = y <;> simp [h]

/-- No string is among the first occurrences twice. -/
theorem nodup_firstOccurrences (xs : List String) : (firstOccurrences xs).Nodup := by
  induction xs with
  | nil => simp [firstOccurrences]
  | cons y ys ih =>
    simp only [firstOccurrences, List.nodup_cons, List.mem_filter]
    exact ⟨by simp, ih.filter _⟩

/-- Filtering a list keeps the relative position of the strings it keeps. -/
theorem indexOf_filter_lt (p : String → Bool) (a b : String) (ha : p a = true)
    (hb : p b = true) (l : List String) :
    (List.indexOf a (l.filter p) < List.indexOf b (l.filter p) ↔
      List.indexOf a l < List.indexOf b l) := by
  induction l with
  | nil => simp
  | cons y ys ih =>
    by_cases hy : p y = true
    · rw [List.filter_cons_of_pos hy]
      by_cases hay : a = y
      · subst hay
        by_cases hby : b = a
        · subst hby; simp
        · simp [List.indexOf_cons_ne _ (Ne.symm hby)]
      · by_cases hby : b = y
        · subst hby; simp [List.indexOf_cons_ne _ (Ne.symm hay)]
        · simp [List.indexOf_cons_ne _ (Ne.symm hay), List.indexOf_cons_ne _ (Ne.symm hby), ih]
    · rw [List.filter_cons_of_neg hy]
      have hay : y ≠ a := fun h => hy (h ▸ ha)
      have hby : y ≠ b := fun h => hy (h ▸ hb)
      simp [List.indexOf_cons_ne _ hay, List.indexOf_cons_ne _ hby, ih]

/-- Among the first occurrences, one string comes before another exactly when
its first occurrence in the list comes before the other's. -/
theorem indexOf_firstOccurrences_lt (a b : String) (xs : List String) :
    (List.indexOf a (firstOccurrences xs) < List.indexOf b (firstOccurrences xs) ↔
      List.indexOf a xs < List.indexOf b xs) := by
  induction xs with
  | nil => simp [firstOccurrences]
  | cons y ys ih =>
    simp only [firstOccurrences]
    by_cases hay : a = y
    · subst hay
      by_cases hby : b = a
      · subst hby; simp
      · simp [List.indexOf_cons_ne _ (Ne.symm hby)]
    · by_cases hby : b = y
      · subst hby; simp [List.indexOf_cons_ne _ (Ne.symm hay)]
      · rw [List.indexOf_cons_ne _ (Ne.symm hay), List.indexOf_cons_ne _ (Ne.symm hby),
          List.indexOf_cons_ne _ (Ne.symm hay), List.indexOf_cons_ne _ (Ne.symm hby),
          Nat.succ_lt_succ_iff, Nat.succ_lt_succ_iff,
          indexOf_filter_lt _ a b (by simpa using hay) (by simpa using hby), ih]

/-- C2: for every sequence of strings received on the result stream, the output
collection holds no string twice, holds exactly the strings of the stream, and
lists them in the order of their first occurrence in the stream (it is the list
of first occurrences, and one string precedes another in it exactly when its
first occurrence in the stream precedes the other's); the stream
`http://a.com`, `http://a.com`, `http://b.com` gives `http://a.com`,
`http://b.com`. -/
theorem outputCollection_dedup_first_occurrence (stream : List String) :
    (outputCollection stream).Nodup ∧
    (∀ s, s ∈ outputCollection stream ↔ s ∈ stream) ∧
    outputCollection stream = firstOccurrences stream ∧
    (∀ a b, (List.indexOf a (outputCollection stream) < List.indexOf b (outputCollection stream) ↔
      List.indexOf a stream < List.indexOf b stream)) ∧
    outputCollection ["http://a.com", "http://a.com", "http://b.com"] =
      ["http://a.com", "http://b.com"] := by
  rw [outputCollection_eq_firstOccurrences]
  exact ⟨nodup_firstOccurrences stream, mem_firstOccurrences stream, rfl,
    fun a b => indexOf_firstOccurrences_lt a b stream, by decide⟩

/-! ## The output -/

/-- After at least one match the slice is not nil and the output is an array. -/
theorem aggregate_cons_ne_nil (x : String) (xs : List String) :
    ∃ l, (aggregate (x :: xs)).parkedDomains = some l := by
  have step : ∀ (ys : List String) (st : AggState) (l : List String),
      st.parkedDomains = some l → ∃ l', (ys.foldl aggregateStep st).parkedDomains = some l' := by
    intro ys
    induction ys with
    | nil => intro st l h; exact ⟨l, h⟩
    | cons y ys ih =>
      intro st l h
      simp only [List.foldl_cons]
      by_cases hy : st.uniqueResults y = true
      · have : aggregateStep st y = st := by simp [aggregateStep, hy]
        rw [this]; exact ih st l h
      · apply ih (aggregateStep st y) (l ++ [y])
        simp [aggregateStep, hy, h, goAppend]
  unfold aggregate
  simp only [List.foldl_cons]
  apply step xs _ [x]
  simp [aggregateStep, AggState.init, goAppend]

/-- After at least one match the program prints an array: the encoded first
occurrences of the stream, separated by commas, between brackets. -/
theorem printedOutput_cons (enc : String → String) (x : String) (xs : List String) :
    printedOutput enc (x :: xs) =
      "[" ++ ",".intercalate ((firstOccurrences (x :: xs)).map enc) ++ "]" ++ "\n" := by
  obtain ⟨l, hl⟩ := aggregate_cons_ne_nil x xs
  have hout : outputCollection (x :: xs) = l := by simp [outputCollection, hl, sliceElems]
  rw [← outputCollection_eq_firstOccurrences, hout]
  simp [printedOutput, hl, jsonMarshal]

/-- C7 (code bug): `parkedDomains` is declared as a nil slice and stays nil when
nothing is received, and `json.Marshal` encodes a nil slice as `null`: with no
match the program prints `null`, not `[]`. -/
theorem printedOutput_no_match (enc : String → String) :
    printedOutput enc [] = "null\n" ∧ printedOutput enc [] ≠ "[]\n" := by
  have h : printedOutput enc [] = "null\n" := rfl
  refine ⟨h, ?_⟩
  rw [h]
  decide

/-! ## The HTTP client -/

/-- The client sends at most as many requests as it is allowed. -/
theorem clientSend_length_le (env : Env) (n : Nat) :
    ∀ (sent : List String) (reqURL : String),
      (clientSend env n sent reqURL).1.length ≤ sent.length + n := by
  induction n with
  | zero => intro sent reqURL; simp [clientSend]
  | succ n ih =>
    intro sent reqURL
    unfold clientSend
    split
    · simp
    · split
      · split
        · simp
        · next next _ =>
          have h := ih (sent ++ [reqURL]) next
          simp only [List.length_append, List.length_singleton] at h
          omega
      · simp

/-- A response the client hands back was given by a server, and it is not a
redirect that names a location: those the client follows itself. -/
theorem clientSend_ok (env : Env) (n : Nat) :
    ∀ (sent : List String) (reqURL : String) (resp : Response),
      (clientSend env n sent reqURL).2 = Except.ok resp →
        (∃ s v, env.roundTrip s v = Except.ok resp) ∧
          ¬ (isRedirectStatus resp.status = true ∧ resp.location ≠ "") := by
  induction n with
  | zero => intro sent reqURL resp h; simp [clientSend] at h
  | succ n ih =>
    intro sent reqURL resp h
    unfold clientSend at h
    split at h
    · simp at h
    · next r hr =>
      split at h
      · split at h
        · simp at h
        · exact ih _ _ resp h
      · next hcond =>
        simp only [Except.ok.injEq] at h
        subst h
        exact ⟨⟨sent, reqURL, hr⟩, hcond⟩

/-- A response that is not a redirect naming a location is handed back after
the one request. -/
theorem clientDo_plain (env : Env) (sent : List String) (urlStr : String) (resp : Response)
    (h : env.roundTrip sent urlStr = Except.ok resp)
    (hplain : ¬ (isRedirectStatus resp.status = true ∧ resp.location ≠ "")) :
    clientDo env sent urlStr = (sent ++ [urlStr], Except.ok resp) := by
  simp [clientDo, clientSend, h, hplain]

/-- A redirect response makes the client request the location itself, whatever
its host, and hand back the answer to that second request. -/
theorem clientDo_redirect (env : Env) (sent : List String) (urlStr target : String)
    (r1 r2 : Response) (h1 : env.roundTrip sent urlStr = Except.ok r1)
    (hst : isRedirectStatus r1.status = true) (hloc : r1.location ≠ "")
    (hres : env.resolve urlStr r1.location = some target)
    (h2 : env.roundTrip (sent ++ [urlStr]) target = Except.ok r2)
    (hplain : ¬ (isRedirectStatus r2.status = true ∧ r2.location ≠ "")) :
    clientDo env sent urlStr = (sent ++ [urlStr, target], Except.ok r2) := by
  have h : clientSend env 9 (sent ++ [urlStr]) target =
      (sent ++ [urlStr] ++ [target], Except.ok r2) := by
    simp [clientSend, h2, hplain]
  unfold clientDo
  rw [clientSend]
  simp only [h1, hst, hloc, ne_eq, not_false_eq_true, and_self, if_true, hres, h]
  simp

/-- Where every URL of a set answers with a redirect to a URL of the set, the
client uses up the requests it is allowed and gives up. -/
theorem clientSend_stops (env : Env) (S : String → Prop)
    (hS : ∀ u, S u → ∀ sent, ∃ resp v, env.roundTrip sent u = Except.ok resp ∧
      isRedirectStatus resp.status = true ∧ resp.location ≠ "" ∧
      env.resolve u resp.location = some v ∧ S v) (n : Nat) :
    ∀ (sent : List String) (u : String), S u →
      ∃ l, l.length = n ∧
        clientSend env n sent u = (sent ++ l, Except.error FetchError.stoppedAfter10) := by
  induction n with
  | zero => intro sent u _; exact ⟨[], rfl, by simp [clientSend]⟩
  | succ n ih =>
    intro sent u hu
    obtain ⟨resp, v, hr, hst, hloc, hres, hv⟩ := hS u hu sent
    obtain ⟨l, hl, hsend⟩ := ih (sent ++ [u]) v hv
    refine ⟨u :: l, by simp [hl], ?_⟩
    rw [clientSend]
    simp only [hr, hst, hloc, ne_eq, not_false_eq_true, and_self, if_true, hres, hsend]
    simp

/-! ## The body the fetcher returns -/

/-- The length in bytes of two texts, one after the other. -/
theorem byteLen_append (xs ys : List Char) : byteLen (xs ++ ys) = byteLen xs + byteLen ys := by
  simp [byteLen]

/-- A text takes at least one byte for each character. -/
theorem length_le_byteLen (l : List Char) : l.length ≤ byteLen l := by
  induction l with
  | nil => simp [byteLen]
  | cons c cs ih =>
    have hc : 1 ≤ c.utf8Size := Char.utf8Size_pos c
    simp only [byteLen, List.map_cons, List.sum_cons, List.length_cons] at ih ⊢
    omega

/-- A text without a newline is one segment. -/
theorem splitNewlines_of_not_mem (l : List Char) (h : '\n' ∉ l) : splitNewlines l = [l] := by
  induction l with
  | nil => rfl
  | cons c cs ih =>
    have hc : c ≠ '\n' := fun e => h (e ▸ List.mem_cons_self _ _)
    have hcs : '\n' ∉ cs := fun e => h (List.mem_cons_of_mem _ e)
    simp [splitNewlines, hc, ih hcs]

/-- The segments of a text, put together again, are the text without its newlines. -/
theorem flatten_splitNewlines (l : List Char) :
    (splitNewlines l).flatten = l.filter (fun c => decide (c ≠ '\n')) := by
  induction l with
  | nil => rfl
  | cons c cs ih =>
    by_cases hc : c = '\n'
    · subst hc
      simp [splitNewlines, ih]
    · simp only [splitNewlines, hc, if_false]
      rw [List.filter_cons_of_pos (by simpa using hc), ← ih]
      cases splitNewlines cs <;> simp

/-- The characters of a segment are characters of the text. -/
theorem mem_of_mem_splitNewlines (l : List Char) :
    ∀ line ∈ splitNewlines l, ∀ c ∈ line, c ∈ l := by
  induction l with
  | nil => intro line hline c hc; simp [splitNewlines] at hline; subst hline; exact hc
  | cons d ds ih =>
    intro line hline c hc
    by_cases hd : d = '\n'
    · simp only [splitNewlines, hd, if_true, List.mem_cons] at hline
      rcases hline with rfl | hline
      · simp at hc
      · exact List.mem_cons_of_mem _ (ih line hline c hc)
    · simp only [splitNewlines, hd, if_false] at hline
      cases hs : splitNewlines ds with
      | nil =>
        simp only [hs, List.mem_singleton] at hline
        subst hline
        simp only [List.mem_singleton] at hc
        subst hc
        exact List.mem_cons_self _ _
      | cons a as =>
        simp only [hs, List.mem_cons] at hline
        rcases hline with rfl | hline
        · rcases List.mem_cons.1 hc with rfl | hc
          · exact List.mem_cons_self _ _
          · exact List.mem_cons_of_mem _ (ih a (by simp [hs]) c hc)
        · exact List.mem_cons_of_mem _ (ih line (by simp [hs, hline]) c hc)

/-- A line without a carriage return is left as it is by `dropCR`. -/
theorem dropCR_of_not_mem (line : List Char) (h : '\r' ∉ line) : dropCR line = line := by
  unfold dropCR
  split
  · next hlast => exact absurd (List.mem_of_getLast?_eq_some hlast) h
  · rfl

/-- While every line is shorter than the buffer and holds no carriage return,
the scanner loop puts the lines one after the other as they are. -/
theorem scanAppend_of_short (eofWithData : Bool) (ls : List (List Char))
    (hshort : ∀ line ∈ ls, byteLen line < maxScanTokenSize)
    (hcr : ∀ line ∈ ls, '\r' ∉ line) :
    scanAppend eofWithData ls = ls.flatten := by
  induction ls with
  | nil => rfl
  | cons l rest ih =>
    have hl : byteLen l < maxScanTokenSize := hshort l (List.mem_cons_self _ _)
    have hd : dropCR l = l := dropCR_of_not_mem l (hcr l (List.mem_cons_self _ _))
    cases rest with
    | nil =>
      have h1 : ¬ (maxScanTokenSize < byteLen l ∨
          (byteLen l = maxScanTokenSize ∧ eofWithData = false)) := by omega
      simp only [scanAppend, h1, if_false, hd, List.flatten_cons, List.flatten_nil,
        List.append_nil]
    | cons m rest' =>
      have h1 : ¬ maxScanTokenSize ≤ byteLen l := by omega
      simp only [scanAppend, h1, if_false, hd, List.flatten_cons]
      rw [ih (fun line hline => hshort line (List.mem_cons_of_mem _ hline))
        (fun line hline => hcr line (List.mem_cons_of_mem _ hline))]
      simp

/-- A body without carriage returns whose lines are all shorter than 64 KiB is
read as the body without its newlines. -/
theorem readBody_of_short_lines (eofWithData : Bool) (body : String)
    (hshort : ∀ line ∈ splitNewlines body.toList, byteLen line < maxScanTokenSize)
    (hcr : '\r' ∉ body.toList) :
    (readBody eofWithData body).toList = body.toList.filter (fun c => decide (c ≠ '\n')) := by
  unfold readBody
  rw [← flatten_splitNewlines, scanAppend_of_short eofWithData _ hshort
    (fun line hline hc => hcr (mem_of_mem_splitNewlines body.toList line hline _ hc))]
  rfl

/-- Where the code does return the body: a body of a single line without a
carriage return that is shorter than 64 KiB is read unchanged. -/
theorem readBody_of_single_line (eofWithData : Bool) (body : String)
    (hn : '\n' ∉ body.toList) (hr : '\r' ∉ body.toList)
    (hshort : byteLen body.toList < maxScanTokenSize) :
    readBody eofWithData body = body := by
  have h1 : ¬ (maxScanTokenSize < byteLen body.toList ∨
      (byteLen body.toList = maxScanTokenSize ∧ eofWithData = false)) := by omega
  unfold readBody
  rw [splitNewlines_of_not_mem _ hn]
  simp only [scanAppend, h1, if_false]
  rw [dropCR_of_not_mem _ hr]
  rfl

/-- A body of one line of exactly 64 KiB is read unchanged when the reader
reports its end together with its last bytes, and as the empty text otherwise. -/
theorem readBody_of_full_buffer (body : String) (hn : '\n' ∉ body.toList)
    (hr : '\r' ∉ body.toList) (hfull : byteLen body.toList = maxScanTokenSize) :
    readBody true body = body ∧ readBody false body = "" := by
  unfold readBody
  rw [splitNewlines_of_not_mem _ hn]
  constructor
  · have h1 : ¬ (maxScanTokenSize < byteLen body.toList ∨
        (byteLen body.toList = maxScanTokenSize ∧ true = false)) := by
      rintro (h | ⟨_, h⟩)
      · omega
      · exact Bool.noConfusion h
    simp only [scanAppend, h1, if_false]
    rw [dropCR_of_not_mem _ hr]
    rfl
  · have h2 : maxScanTokenSize < byteLen body.toList ∨
        (byteLen body.toList = maxScanTokenSize ∧ false = false) := Or.inr ⟨hfull, rfl⟩
    rw [scanAppend, if_pos h2]

/-- A body of one line of more than 64 KiB is read as the empty text, whatever
it contains, and so is never classified as parked. -/
theorem readBody_of_long_line (eofWithData : Bool) (body : String) (hn : '\n' ∉ body.toList)
    (hlong : maxScanTokenSize < byteLen body.toList) :
    readBody eofWithData body = "" ∧ isContentParked (readBody eofWithData body) = false := by
  have h : readBody eofWithData body = "" := by
    unfold readBody
    rw [splitNewlines_of_not_mem _ hn]
    simp only [scanAppend, hlong, true_or, if_true]
  rw [h]
  exact ⟨rfl, by decide⟩

/-- The scanner drops a carriage return only in front of a newline or at the
end of the body. -/
theorem readBody_carriage_returns :
    readBody true "go\r\ndaddy" = "godaddy" ∧ readBody true "go\rdaddy\r" = "go\rdaddy" ∧
    readBody true "a\n\nb\n" = "ab" := by
  decide

/-- The long example body has no newline, takes more than 64 KiB and contains
the signature phrase `godaddy`. -/
theorem longLineBody_facts :
    '\n' ∉ longLineBody.toList ∧ maxScanTokenSize < byteLen longLineBody.toList ∧
      isContentParked longLineBody = true := by
  refine ⟨?_, ?_, ?_⟩
  · intro h
    have h' : '\n' ∈ List.replicate 70000 'a' ++ "godaddy".toList := h
    rcases List.mem_append.1 h' with h1 | h1
    · exact absurd (List.eq_of_mem_replicate h1) (by decide)
    · exact absurd h1 (by decide)
  · have hlen : (List.replicate 70000 'a' ++ "godaddy".toList).length ≤
        byteLen (List.replicate 70000 'a' ++ "godaddy".toList) := length_le_byteLen _
    have hl : (List.replicate 70000 'a' ++ "godaddy".toList).length = 70007 := by
      rw [List.length_append, List.length_replicate]; rfl
    have hb : byteLen longLineBody.toList =
        byteLen (List.replicate 70000 'a' ++ "godaddy".toList) := rfl
    have hm : maxScanTokenSize = 65536 := rfl
    omega
  · apply isContentParked_of_containsSignaturePhrase
    refine ⟨"godaddy".toList, by decide, List.replicate 70000 'a', [], ?_⟩
    rw [List.append_nil]
    rfl

/-! ## What `followURL` and `handleURL` do with what the client hands back -/

/-- A malformed URL is answered with an error before any request is made. -/
theorem followURL_malformed (env : Env) (fuel : Nat) (sent : List String) (urlStr : String)
    (hreq : env.urlParse urlStr = none) :
    followURL env (fuel + 1) sent urlStr =
      some ⟨sent, Outcome.error (FetchError.badURL urlStr)⟩ := by
  simp [followURL, hreq]

/-- An error of the client is handed back as the error of the call. -/
theorem followURL_client_error (env : Env) (fuel : Nat) (sent sent' : List String)
    (urlStr : String) (u : URL) (err : FetchError) (hreq : env.urlParse urlStr = some u)
    (hdo : clientDo env sent urlStr = (sent', Except.error err)) :
    followURL env (fuel + 1) sent urlStr = some ⟨sent', Outcome.error err⟩ := by
  simp [followURL, hreq, hdo]

/-- A response the client hands back without a location, or with a location on
another host, is answered with its body as read by the scanner loop. -/
theorem followURL_unfollowed (env : Env) (fuel : Nat) (sent sent' : List String)
    (urlStr : String) (u : URL) (resp : Response) (hreq : env.urlParse urlStr = some u)
    (hdo : clientDo env sent urlStr = (sent', Except.ok resp))
    (hnf : resp.location = "" ∨ ∃ l, env.urlParse resp.location = some l ∧
      ¬ (u.Host = l.Host ∨ "www." ++ u.Host = l.Host)) :
    followURL env (fuel + 1) sent urlStr =
      some ⟨sent', Outcome.ok (readBody resp.eofWithData resp.body)⟩ := by
  rcases hnf with hloc | ⟨l, hl, hh⟩
  · simp [followURL, hreq, hdo, hloc]
  · by_cases hloc : resp.location = ""
    · simp [followURL, hreq, hdo, hloc]
    · simp [followURL, hreq, hdo, hloc, hl, getDomainFromURL, hh]

/-- A response the client hands back with a location on the same host, or on
its `www.` variant, makes `followURL` call itself on the location. -/
theorem followURL_followed (env : Env) (fuel : Nat) (sent sent' : List String)
    (urlStr : String) (u l : URL) (resp : Response) (hreq : env.urlParse urlStr = some u)
    (hdo : clientDo env sent urlStr = (sent', Except.ok resp)) (hloc : resp.location ≠ "")
    (hl : env.urlParse resp.location = some l)
    (hh : u.Host = l.Host ∨ "www." ++ u.Host = l.Host) :
    followURL env (fuel + 1) sent urlStr = followURL env fuel sent' resp.location := by
  simp [followURL, hreq, hdo, hloc, hl, getDomainFromURL, hh]

/-- A location that `url.Parse` rejects makes `getDomainFromURL` dereference a
nil pointer. -/
theorem followURL_bad_location (env : Env) (fuel : Nat) (sent sent' : List String)
    (urlStr : String) (u : URL) (resp : Response) (hreq : env.urlParse urlStr = some u)
    (hdo : clientDo env sent urlStr = (sent', Except.ok resp)) (hloc : resp.location ≠ "")
    (hbad : env.urlParse resp.location = none) :
    followURL env (fuel + 1) sent urlStr = some ⟨sent', Outcome.panic⟩ := by
  simp [followURL, hreq, hdo, hloc, hbad, getDomainFromURL]

/-- The test of lines 57 to 65, for a response the client hands back with a
location that parses (a status the client does not follow by itself): the
location is followed exactly when its host is the host of the URL or its `www.`
variant; otherwise the body of the response is read. -/
theorem followURL_location_test (env : Env) (fuel : Nat) (sent sent' : List String)
    (urlStr : String) (u l : URL) (resp : Response) (hreq : env.urlParse urlStr = some u)
    (hdo : clientDo env sent urlStr = (sent', Except.ok resp)) (hloc : resp.location ≠ "")
    (hl : env.urlParse resp.location = some l) :
    ((l.Host = u.Host ∨ l.Host = "www." ++ u.Host) →
      followURL env (fuel + 1) sent urlStr = followURL env fuel sent' resp.location) ∧
    (¬ (l.Host = u.Host ∨ l.Host = "www." ++ u.Host) →
      followURL env (fuel + 1) sent urlStr =
        some ⟨sent', Outcome.ok (readBody resp.eofWithData resp.body)⟩) := by
  constructor
  · intro hh
    apply followURL_followed env fuel sent sent' urlStr u l resp hreq hdo hloc hl
    rcases hh with h | h
    · exact Or.inl h.symm
    · exact Or.inr h.symm
  · intro hh
    apply followURL_unfollowed env fuel sent sent' urlStr u resp hreq hdo
    refine Or.inr ⟨l, hl, ?_⟩
    rintro (h | h)
    · exact hh (Or.inl h.symm)
    · exact hh (Or.inr h.symm)

/-- When `followURL` returns an error, the body of `handleURL` sends nothing on
the result stream and prints the error only in verbose mode. -/
theorem handleURL_of_error (env : Env) (verbose : Bool) (fuel : Nat) (raw : String)
    (requests : List String) (err : FetchError)
    (h : followURL env fuel [] (normalizeURL raw) = some ⟨requests, Outcome.error err⟩) :
    handleURL env verbose fuel raw =
      some ⟨normalizeURL raw, requests,
        if verbose then [(normalizeURL raw, err)] else [], [], false⟩ := by
  simp [handleURL, h]

/-- When `followURL` returns a body, `handleURL` sends the normalised URL
exactly when the classifier accepts that body. -/
theorem handleURL_of_ok (env : Env) (verbose : Bool) (fuel : Nat) (raw : String)
    (requests : List String) (body : String)
    (h : followURL env fuel [] (normalizeURL raw) = some ⟨requests, Outcome.ok body⟩) :
    handleURL env verbose fuel raw =
      some ⟨normalizeURL raw, requests, [],
        if isContentParked body then [normalizeURL raw] else [], false⟩ := by
  simp [handleURL, h]

/-- When `followURL` panics, so does `handleURL`. -/
theorem handleURL_of_panic (env : Env) (verbose : Bool) (fuel : Nat) (raw : String)
    (requests : List String)
    (h : followURL env fuel [] (normalizeURL raw) = some ⟨requests, Outcome.panic⟩) :
    handleURL env verbose fuel raw = some ⟨normalizeURL raw, requests, [], [], true⟩ := by
  simp [handleURL, h]

/-! ## The redirect policy -/

/-- C4 (code bug): a redirect response (status 301, 302, 303, 307 or 308 with a
location) never reaches the host test of lines 57 to 65.  The client of lines
40 to 42 has the default redirect policy, so `client.Do` itself requests the
location, whatever its host, and `followURL` returns the body served there and
`handleURL` classifies the URL by it: the redirect is followed although the
hosts differ, and a request is made to the target. -/
theorem followURL_client_follows_any_host (env : Env) (fuel : Nat) (urlStr target : String)
    (u : URL) (r1 r2 : Response) (hreq : env.urlParse urlStr = some u)
    (h1 : env.roundTrip [] urlStr = Except.ok r1)
    (hst : isRedirectStatus r1.status = true) (hloc : r1.location ≠ "")
    (hres : env.resolve urlStr r1.location = some target)
    (h2 : env.roundTrip [urlStr] target = Except.ok r2)
    (hst2 : isRedirectStatus r2.status = false) (hloc2 : r2.location = "") :
    followURL env (fuel + 1) [] urlStr =
      some ⟨[urlStr, target], Outcome.ok (readBody r2.eofWithData r2.body)⟩ ∧
    ∀ verbose raw, normalizeURL raw = urlStr →
      handleURL env verbose (fuel + 1) raw =
        some ⟨urlStr, [urlStr, target], [],
          if isContentParked (readBody r2.eofWithData r2.body) then [urlStr] else [], false⟩ := by
  have hdo : clientDo env [] urlStr = ([urlStr, target], Except.ok r2) := by
    have h := clientDo_redirect env [] urlStr target r1 r2 h1 hst hloc hres h2 (by simp [hst2])
    simpa using h
  have h := followURL_unfollowed env fuel [] [urlStr, target] urlStr u r2 hreq hdo (Or.inl hloc2)
  refine ⟨h, ?_⟩
  intro verbose raw hraw
  rw [← hraw] at h
  rw [handleURL_of_ok env verbose (fuel + 1) raw _ _ h, hraw]

/-- C4 (witness): `http://a.com` answers `302 Found` with the location
`http://b.com/`, on another host.  The target is requested, its body `godaddy`
is the result, and `http://a.com` is reported as parked. -/
theorem followURL_client_follows_any_host_witness :
    getDomainFromURL redirectEnv "http://a.com" = some "a.com" ∧
    getDomainFromURL redirectEnv "http://b.com/" = some "b.com" ∧
    followURL redirectEnv 1 [] "http://a.com" =
      some ⟨["http://a.com", "http://b.com/"], Outcome.ok (readBody true "godaddy")⟩ ∧
    handleURL redirectEnv false 1 "a.com" =
      some ⟨"http://a.com", ["http://a.com", "http://b.com/"], [],
        if isContentParked (readBody true "godaddy") then ["http://a.com"] else [], false⟩ :=
  have h := followURL_client_follows_any_host redirectEnv 0 "http://a.com" "http://b.com/"
    ⟨"a.com"⟩ ⟨302, "http://b.com/", "", true⟩ ⟨200, "", "godaddy", true⟩ rfl rfl (by decide)
    (by decide) rfl rfl (by decide) rfl
  ⟨by decide, by decide, h.1, h.2 false "a.com" (by decide)⟩

/-! ## The number of hops -/

/-- C5 (counterexample): in the web of chains every response is `200 OK` with
a `Location` header on the same host.  `followURL` follows a chain of eleven
such hops to its end and returns the page after twelve requests: more than ten
hops, and no error. -/
theorem followURL_eleven_hops :
    (followURL chainEnv 12 [] "http://a.com/xxxxxxxxxxx").map
      (fun r => (r.requests.length, r.requests.getLast?, r.outcome)) =
      some (12, some "http://a.com/", Outcome.ok "done") := by
  decide

/-- C5 (amended): in every web in which only redirect responses (status 301,
302, 303, 307, 308) carry a `Location` header, `followURL` terminates after at
most ten requests: the redirects are followed by Go's client, which stops after
ten requests.  Where the URL redirects to itself, or URLs redirect to each
other in a circle, the call returns the client's error `stopped after 10
redirects` after exactly ten requests. -/
theorem followURL_client_bound (env : Env)
    (honly : ∀ sent u resp, env.roundTrip sent u = Except.ok resp →
      resp.location ≠ "" → isRedirectStatus resp.status = true)
    (urlStr : String) :
    (∃ r, (∀ fuel, followURL env (fuel + 1) [] urlStr = some r) ∧ r.requests.length ≤ 10) ∧
    (∀ S : String → Prop,
      (∀ u, S u → ∀ sent, ∃ resp v, env.roundTrip sent u = Except.ok resp ∧
        resp.location ≠ "" ∧ env.resolve u resp.location = some v ∧ S v) →
      S urlStr → env.urlParse urlStr ≠ none →
      ∃ requests, requests.length = 10 ∧
        ∀ fuel, followURL env (fuel + 1) [] urlStr =
          some ⟨requests, Outcome.error FetchError.stoppedAfter10⟩) := by
  constructor
  · cases hreq : env.urlParse urlStr with
    | none =>
      exact ⟨⟨[], Outcome.error (FetchError.badURL urlStr)⟩,
        fun fuel => followURL_malformed env fuel [] urlStr hreq, by simp⟩
    | some u =>
      have hlen := clientSend_length_le env 10 [] urlStr
      cases hdo : clientDo env [] urlStr with
      | mk sent' res =>
        have hlen' : sent'.length ≤ 10 := by
          have : (clientSend env 10 [] urlStr).1 = sent' := by
            have := congrArg Prod.fst hdo
            simpa [clientDo] using this
          rw [this] at hlen
          simpa using hlen
        cases res with
        | error err =>
          exact ⟨⟨sent', Outcome.error err⟩,
            fun fuel => followURL_client_error env fuel [] sent' urlStr u err hreq hdo, hlen'⟩
        | ok resp =>
          have hok : (clientSend env 10 [] urlStr).2 = Except.ok resp := by
            have := congrArg Prod.snd hdo
            simpa [clientDo] using this
          obtain ⟨⟨s, v, hsv⟩, hplain⟩ := clientSend_ok env 10 [] urlStr resp hok
          have hloc : resp.location = "" := by
            by_contra hne
            exact hplain ⟨honly s v resp hsv hne, hne⟩
          exact ⟨⟨sent', Outcome.ok (readBody resp.eofWithData resp.body)⟩,
            fun fuel => followURL_unfollowed env fuel [] sent' urlStr u resp hreq hdo
              (Or.inl hloc), hlen'⟩
  · intro S hS hu hreq
    have hS' : ∀ u, S u → ∀ sent, ∃ resp v, env.roundTrip sent u = Except.ok resp ∧
        isRedirectStatus resp.status = true ∧ resp.location ≠ "" ∧
        env.resolve u resp.location = some v ∧ S v := by
      intro u hu sent
      obtain ⟨resp, v, hr, hloc, hres, hv⟩ := hS u hu sent
      exact ⟨resp, v, hr, honly sent u resp hr hloc, hloc, hres, hv⟩
    obtain ⟨l, hl, hsend⟩ := clientSend_stops env S hS' 10 [] urlStr hu
    obtain ⟨u, hu'⟩ := Option.ne_none_iff_exists'.1 hreq
    refine ⟨l, hl, fun fuel => ?_⟩
    apply followURL_client_error env fuel [] l urlStr u _ hu'
    simpa [clientDo] using hsend

/-- Only redirect responses carry a location in the web of the `302` loop. -/
theorem loop302Env_only_redirects (sent : List String) (u : String) (resp : Response)
    (h : loop302Env.roundTrip sent u = Except.ok resp) (_hloc : resp.location ≠ "") :
    isRedirectStatus resp.status = true := by
  by_cases hu : u = "http://a.com/loop"
  · simp only [loop302Env, hu, if_true, Except.ok.injEq] at h
    subst h
    decide
  · simp [loop302Env, hu] at h

/-- C5 (witness): `http://a.com/loop` answers `302 Found` with itself as the
location; the call ends with the client's error after ten requests. -/
theorem followURL_client_bound_witness :
    (∃ r, (∀ fuel, followURL loop302Env (fuel + 1) [] "http://a.com/loop" = some r) ∧
      r.requests.length ≤ 10) ∧
    (∃ requests, requests.length = 10 ∧
      ∀ fuel, followURL loop302Env (fuel + 1) [] "http://a.com/loop" =
        some ⟨requests, Outcome.error FetchError.stoppedAfter10⟩) :=
  have h := followURL_client_bound loop302Env loop302Env_only_redirects "http://a.com/loop"
  ⟨h.1, h.2 (fun u => u = "http://a.com/loop")
    (fun u hu sent => ⟨⟨302, "http://a.com/loop", "", true⟩, "http://a.com/loop",
      by subst hu; rfl, by decide, by subst hu; rfl, rfl⟩)
    rfl (by decide)⟩

/-! ## The nil pointer -/

/-- C8 (code bug): when the response carries a `Location` header that
`url.Parse` rejects, `getDomainFromURL` reads the field `Host` of a nil pointer:
`followURL` returns neither a body nor an error but panics, and `handleURL`
panics with it. -/
theorem followURL_nil_dereference (env : Env) (fuel : Nat) (urlStr : String) (u : URL)
    (requests : List String) (resp : Response) (hreq : env.urlParse urlStr = some u)
    (hdo : clientDo env [] urlStr = (requests, Except.ok resp)) (hloc : resp.location ≠ "")
    (hbad : env.urlParse resp.location = none) :
    followURL env (fuel + 1) [] urlStr = some ⟨requests, Outcome.panic⟩ ∧
    ∀ verbose raw, normalizeURL raw = urlStr →
      handleURL env verbose (fuel + 1) raw = some ⟨urlStr, requests, [], [], true⟩ := by
  have h := followURL_bad_location env fuel [] requests urlStr u resp hreq hdo hloc hbad
  refine ⟨h, ?_⟩
  intro verbose raw hraw
  rw [← hraw] at h
  rw [handleURL_of_panic env verbose (fuel + 1) raw _ h, hraw]

/-- C8 (witness): the input ` a.com`, normalised to `http://a.com`, in the web
where that URL answers `200 OK` with the location `:foo`. -/
theorem followURL_nil_dereference_witness :
    normalizeURL " a.com" = "http://a.com" ∧
    followURL badLocationEnv 1 [] "http://a.com" = some ⟨["http://a.com"], Outcome.panic⟩ ∧
    handleURL badLocationEnv false 1 " a.com" =
      some ⟨"http://a.com", ["http://a.com"], [], [], true⟩ :=
  have h := followURL_nil_dereference badLocationEnv 0 "http://a.com" ⟨"a.com"⟩
    ["http://a.com"] ⟨200, ":foo", "moved", true⟩ rfl rfl (by decide) rfl
  ⟨by decide, h.1, h.2 false " a.com" (by decide)⟩

/-! ## The returned body -/

/-- The client hands the long page back after the one request. -/
theorem clientDo_pageEnv_long :
    clientDo pageEnv [] "http://d.com" =
      (["http://d.com"], Except.ok ⟨200, "", longLineBody, true⟩) :=
  clientDo_plain pageEnv [] "http://d.com" ⟨200, "", longLineBody, true⟩ rfl (by simp)

/-- C10 (code bug): `followURL` does not return the body unchanged.
`http://c.com` serves the two lines `go` and `daddy`: the body holds no
signature phrase, but the line scanner drops the newline, `followURL` returns
`godaddy` and `handleURL` reports the URL as parked.  `http://d.com` serves one
line of more than 64 KiB that contains `godaddy`: the scanner gives up on the
line, its error is never read, `followURL` returns the empty text and the URL is
not reported. -/
theorem followURL_body_not_returned :
    (pageEnv.roundTrip [] "http://c.com" = Except.ok ⟨200, "", "go\ndaddy", true⟩ ∧
      isContentParked "go\ndaddy" = false ∧
      followURL pageEnv 1 [] "http://c.com" = some ⟨["http://c.com"], Outcome.ok "godaddy"⟩ ∧
      handleURL pageEnv false 1 "c.com" =
        some ⟨"http://c.com", ["http://c.com"], [], ["http://c.com"], false⟩) ∧
    (pageEnv.roundTrip [] "http://d.com" = Except.ok ⟨200, "", longLineBody, true⟩ ∧
      maxScanTokenSize < byteLen longLineBody.toList ∧
      isContentParked longLineBody = true ∧
      followURL pageEnv 1 [] "http://d.com" = some ⟨["http://d.com"], Outcome.ok ""⟩ ∧
      handleURL pageEnv false 1 "d.com" =
        some ⟨"http://d.com", ["http://d.com"], [], [], false⟩) := by
  have hd : followURL pageEnv 1 [] "http://d.com" = some ⟨["http://d.com"], Outcome.ok ""⟩ := by
    have h := followURL_unfollowed pageEnv 0 [] ["http://d.com"] "http://d.com" ⟨"d.com"⟩
      ⟨200, "", longLineBody, true⟩ rfl clientDo_pageEnv_long (Or.inl rfl)
    rw [h, (readBody_of_long_line true longLineBody longLineBody_facts.1
      longLineBody_facts.2.1).1]
  have hn : normalizeURL "d.com" = "http://d.com" := by decide
  have hh : handleURL pageEnv false 1 "d.com" =
      some ⟨"http://d.com", ["http://d.com"], [], [], false⟩ := by
    have h := handleURL_of_ok pageEnv false 1 "d.com" ["http://d.com"] "" (by rw [hn]; exact hd)
    rw [h, hn]
    rfl
  exact ⟨⟨rfl, by decide, by decide, by decide⟩,
    ⟨rfl, longLineBody_facts.2.1, longLineBody_facts.2.2, hd, hh⟩⟩

end ParkedDomains
